import Mathlib

/-!
# Verification of the reality-watcher dedup/persistence core

Shallow embedding of the repository's listing-watcher core:

* `src/src/sreality/parser.py` — price extraction from listing titles
  (`PRICE_RE` + `_clean_int`), link extraction (`extract_listing_links`,
  `_id_from_url`) and the dedup loop `extract_new_listings`;
* `src/src/sreality/manager.py` — `JsonStateRepo` (`_load_json`, `__init__`,
  `get_seen`, `save_seen`, `prune_old`) and `BotManager._cmd_interval`;
* `src/bez_manager.py` — the Bezrealitky `BotManager._cmd_interval`;
* `src/watcher.py` / `src/bez_watcher.py` — one tick of `Watcher.run` /
  `BezWatcher.run`, with the network calls (page fetch, Slack posts)
  defunctionalised as explicit parameters.

Modelling conventions: Python strings are `String` (logic works on
`List Char`); Python `set` objects are duplicate-free `List String` compared
by membership; Python dicts are insertion-ordered association lists;
timestamps (`time.time()`) are exact integers — every claim only adds,
subtracts and compares them at integer offsets, which float doubles perform
exactly at these magnitudes; regex character classes are modelled over the
characters that actually occur in the data (ASCII plus the NBSP and
narrow-NBSP separators named in the source patterns).
-/

namespace RealityWatcher

/-! ## Character helpers -/

/-- ASCII decimal digit, the `\d` of the source regexes restricted to ASCII. -/
def isDigitCh (c : Char) : Bool := '0' ≤ c && c ≤ '9'

/-- The whitespace class of the source patterns: Python `\s` (ASCII part)
plus the explicit U+00A0 and U+202F separators listed in `PRICE_RE`. -/
def isSpaceCh (c : Char) : Bool :=
  c = ' ' || c = '\t' || c = '\n' || c = '\r' || c = '\x0b' || c = '\x0c' ||
  c = ' ' || c = ' '

/-- Characters stripped from both ends by Python `str.strip()` /
accepted around an integer literal by `int()` (ASCII whitespace plus the
two non-breaking spaces that occur in the data). -/
def isStripCh (c : Char) : Bool := isSpaceCh c

/-- Python `str.strip()`. -/
def pyStrip (cs : List Char) : List Char :=
  ((cs.dropWhile isStripCh).reverse.dropWhile isStripCh).reverse

/-- Lower-case an ASCII letter (for the case-insensitive `/detail/` match). -/
def lowerCh (c : Char) : Char :=
  if 'A' ≤ c && c ≤ 'Z' then Char.ofNat (c.toNat + 32) else c

/-! ## Decimal rendering of integers (Python `str(int)` / f-string) -/

/-- The decimal digit character for `d` (`d ≤ 9` in every use). -/
def digitCh : Nat → Char
  | 0 => '0' | 1 => '1' | 2 => '2' | 3 => '3' | 4 => '4'
  | 5 => '5' | 6 => '6' | 7 => '7' | 8 => '8' | _ => '9'

/-- Big-endian decimal digits of a natural number. -/
def decDigits (n : Nat) : List Char :=
  if h : n < 10 then [digitCh n]
  else decDigits (n / 10) ++ [digitCh (n % 10)]
  decreasing_by
    exact Nat.div_lt_self (Nat.lt_of_lt_of_le (by norm_num) (Nat.le_of_not_lt h)) (by norm_num)

/-- Numeric value of a digit character. -/
def digitVal (c : Char) : Nat := c.toNat - 48

/-- Evaluate a digit string back to a number (left inverse of `decDigits`). -/
def decVal (cs : List Char) : Nat := cs.foldl (fun a c => a * 10 + digitVal c) 0

/-- Python `str` of a non-negative integer. -/
def natStr (n : Nat) : String := ⟨decDigits n⟩

/-- Python `str` of an integer (f-string rendering of a price). -/
def intStr : Int → String
  | Int.ofNat n => natStr n
  | Int.negSucc n => ⟨'-' :: decDigits (n + 1)⟩

theorem digitVal_digitCh {d : Nat} (h : d < 10) : digitVal (digitCh d) = d := by
  interval_cases d <;> rfl

theorem decVal_append (cs : List Char) (c : Char) :
    decVal (cs ++ [c]) = decVal cs * 10 + digitVal c := by
  simp [decVal, List.foldl_append]

theorem decVal_decDigits (n : Nat) : decVal (decDigits n) = n := by
  induction n using Nat.strong_induction_on with
  | _ n ih =>
    rw [decDigits]
    by_cases h : n < 10
    · simp only [h, dif_pos]
      simp [decVal, digitVal_digitCh h]
    · simp only [h, dif_neg, not_false_iff]
      rw [decVal_append, ih (n / 10)
        (Nat.div_lt_self (Nat.lt_of_lt_of_le (by norm_num) (Nat.le_of_not_lt h)) (by norm_num)),
        digitVal_digitCh (Nat.mod_lt n (by norm_num))]
      omega

theorem decDigits_injective : Function.Injective decDigits :=
  Function.LeftInverse.injective decVal_decDigits

/-- The leading character of a decimal rendering is a digit. -/
theorem decDigits_head_digit (n : Nat) :
    ∃ c cs, decDigits n = c :: cs ∧ isDigitCh c = true := by
  induction n using Nat.strong_induction_on with
  | _ n ih =>
    rw [decDigits]
    by_cases h : n < 10
    · simp only [h, dif_pos]
      refine ⟨digitCh n, [], rfl, ?_⟩
      interval_cases n <;> rfl
    · simp only [h, dif_neg, not_false_iff]
      obtain ⟨c, cs, hEq, hDig⟩ := ih (n / 10)
        (Nat.div_lt_self (Nat.lt_of_lt_of_le (by norm_num) (Nat.le_of_not_lt h)) (by norm_num))
      exact ⟨c, cs ++ [digitCh (n % 10)], by rw [hEq]; rfl, hDig⟩

theorem natStr_injective : Function.Injective natStr := by
  intro a b h
  exact decDigits_injective (congrArg String.data h)

theorem intStr_injective : Function.Injective intStr := by
  intro a b h
  cases a with
  | ofNat m =>
    cases b with
    | ofNat n => exact congrArg Int.ofNat (natStr_injective h)
    | negSucc n =>
      exfalso
      have hd : decDigits m = '-' :: decDigits (n + 1) := congrArg String.data h
      obtain ⟨c, cs, hEq, hDig⟩ := decDigits_head_digit m
      rw [hEq] at hd
      cases hd
      simp [isDigitCh] at hDig
  | negSucc m =>
    cases b with
    | ofNat n =>
      exfalso
      have hd : '-' :: decDigits (m + 1) = decDigits n := congrArg String.data h
      obtain ⟨c, cs, hEq, hDig⟩ := decDigits_head_digit n
      rw [hEq] at hd
      cases hd
      simp [isDigitCh] at hDig
    | negSucc n =>
      have hd : '-' :: decDigits (m + 1) = '-' :: decDigits (n + 1) :=
        congrArg String.data h
      have hmn : m + 1 = n + 1 := decDigits_injective (List.cons.inj hd).2
      exact congrArg Int.negSucc (Nat.succ_injective hmn)

/-! ## Python `int(...)` on cleaned digit strings -/

/-- Digit tail of a Python integer literal: digits with single underscores
allowed between digits (`int("1_000") = 1000`). -/
def digitsUGo (acc : Nat) : List Char → Option Nat
  | [] => some acc
  | c :: rest =>
    if isDigitCh c then digitsUGo (acc * 10 + digitVal c) rest
    else if c = '_' then
      match rest with
      | d :: rest' => if isDigitCh d then digitsUGo (digitVal d + acc * 10) rest' else none
      | [] => none
    else none

/-- Unsigned Python integer literal body (nonempty, starts with a digit). -/
def digitsU : List Char → Option Nat
  | [] => none
  | c :: rest => if isDigitCh c then digitsUGo (digitVal c) rest else none

/-- Model of Python `int(s)` for strings: optional surrounding whitespace,
optional sign, digits with underscore separators. -/
def pyInt (cs : List Char) : Option Int :=
  match pyStrip cs with
  | '-' :: rest => (digitsU rest).map (fun n => -(n : Int))
  | '+' :: rest => (digitsU rest).map (fun n => (n : Int))
  | rest => (digitsU rest).map (fun n => (n : Int))

/-- `_clean_int` from `src/src/sreality/parser.py`: drop the NBSP, zero-width
space, space, narrow NBSP and comma characters, then parse with `int`,
returning `None` on failure. -/
def clean_int (cs : List Char) : Option Int :=
  if cs = [] then none
  else pyInt (cs.filter fun c => !(c = '\u00A0' || c = '\u200B' || c = ' ' || c = '\u202F' || c = ','))

/-! ## `PRICE_RE` — the price regex of `src/src/sreality/parser.py`

`PRICE_RE = (\d{1,3}(?:[\s  ]\d{3})+|\d{4,})\s*Kč` (IGNORECASE),
used through `re.search` (leftmost match).  The matcher below implements the
backtracking behaviour of the Python engine: alternatives tried left to
right, greedy repetition with give-back.  It returns the raw text of capture
group 1 (digits with their original separator characters). -/

/-- `\s*Kč` at the start of the input.  `K`/`k` is not a whitespace
character, so the greedy `\s*` never needs to give back. -/
def matchKc (cs : List Char) : Bool :=
  match cs.dropWhile isSpaceCh with
  | k :: c :: _ => (k = 'K' || k = 'k') && (c = 'Č' || c = 'č')
  | _ => false

/-- Take exactly `n` leading digits. -/
def takeDigitsN : Nat → List Char → Option (List Char × List Char)
  | 0, cs => some ([], cs)
  | _ + 1, [] => none
  | n + 1, c :: cs =>
    if isDigitCh c then (takeDigitsN n cs).map (fun pr => (c :: pr.1, pr.2)) else none

/-- `(?:[\s  ]\d{3})*` followed by `\s*Kč`, greedy with give-back;
`raw` is the group-1 text matched so far. -/
def starGroups (raw : List Char) : List Char → Option (List Char)
  | s :: d1 :: d2 :: d3 :: rest =>
    if isSpaceCh s && isDigitCh d1 && isDigitCh d2 && isDigitCh d3 then
      match starGroups (raw ++ [s, d1, d2, d3]) rest with
      | some g => some g
      | none => if matchKc (s :: d1 :: d2 :: d3 :: rest) then some raw else none
    else if matchKc (s :: d1 :: d2 :: d3 :: rest) then some raw else none
  | cs => if matchKc cs then some raw else none

/-- `(?:[\s  ]\d{3})+` followed by `\s*Kč` (at least one group). -/
def plusGroups (raw : List Char) : List Char → Option (List Char)
  | s :: d1 :: d2 :: d3 :: rest =>
    if isSpaceCh s && isDigitCh d1 && isDigitCh d2 && isDigitCh d3 then
      starGroups (raw ++ [s, d1, d2, d3]) rest
    else none
  | _ => none

/-- First alternative with `\d{1,3}` fixed to `n` digits. -/
def alt1Try (n : Nat) (cs : List Char) : Option (List Char) :=
  match takeDigitsN n cs with
  | some pr => plusGroups pr.1 pr.2
  | none => none

/-- `\d{1,3}(?:[\s  ]\d{3})+\s*Kč` — greedy `{1,3}` tries 3, 2, 1. -/
def alt1 (cs : List Char) : Option (List Char) :=
  alt1Try 3 cs <|> alt1Try 2 cs <|> alt1Try 1 cs

/-- `\d{4,}\s*Kč` give-back loop: try the longest digit prefix first. -/
def alt2Aux (run rest : List Char) : Nat → Option (List Char)
  | 0 => none
  | j + 1 =>
    if 4 ≤ j + 1 ∧ matchKc (run.drop (j + 1) ++ rest) = true then some (run.take (j + 1))
    else alt2Aux run rest j

/-- Second alternative `\d{4,}` followed by `\s*Kč`. -/
def alt2 (cs : List Char) : Option (List Char) :=
  alt2Aux (cs.takeWhile isDigitCh) (cs.dropWhile isDigitCh) (cs.takeWhile isDigitCh).length

/-- Try the whole pattern anchored at this position (alternation order of
the source regex). -/
def priceMatchAt (cs : List Char) : Option (List Char) :=
  alt1 cs <|> alt2 cs

/-- `re.search` over all start positions, leftmost first. -/
def priceSearch : List Char → Option (List Char)
  | [] => none
  | c :: rest =>
    match priceMatchAt (c :: rest) with
    | some g => some g
    | none => priceSearch rest

/-- The `price_czk` field computed by `parse_title_fields`:
`PRICE_RE.search(title)` then `_clean_int(m.group(1))`.  The other fields of
`parse_title_fields` (area, disposition, locality) are carried through the
pipeline as data only and never influence the dedup logic. -/
def parseTitlePrice (title : String) : Option Int :=
  match priceSearch title.data with
  | some g => clean_int g
  | none => none

/-! ## `_id_from_url` — `re.search(r"/(\d{6,})(?:$|[/?#])", url_abs)` -/

/-- Leftmost occurrence of `/` followed by six or more digits that end the
string or are followed by `/`, `?` or `#`; returns the digit run.  The
greedy `\d{6,}` never profits from give-back here because a given-back
digit can match neither `$` nor `[/?#]`. -/
def idSearch : List Char → Option (List Char)
  | [] => none
  | c :: rest =>
    if c = '/' ∧ 6 ≤ (rest.takeWhile isDigitCh).length ∧
        (rest.dropWhile isDigitCh = [] ∨ (rest.dropWhile isDigitCh).head? = some '/' ∨
          (rest.dropWhile isDigitCh).head? = some '?' ∨
          (rest.dropWhile isDigitCh).head? = some '#')
    then some (rest.takeWhile isDigitCh)
    else idSearch rest

/-- `_id_from_url`: the numeric id of a detail URL, falling back to the
whole URL when no such number exists. -/
def id_from_url (urlAbs : String) : String :=
  match idSearch urlAbs.data with
  | some run => ⟨run⟩
  | none => urlAbs

/-! ## `extract_listing_links` -/

/-- One `<a href=...>` element as produced by BeautifulSoup: the `href`
attribute, the optional `aria-label` and `title` attributes, and the
rendered text `get_text(" ", strip=True)`. -/
structure Anchor where
  href : String
  ariaLabel : Option String
  titleAttr : Option String
  text : String
deriving DecidableEq, Repr

/-- One extracted listing link `{id, url, title}`. -/
structure Listing where
  id : String
  url : String
  title : String
deriving DecidableEq, Repr

/-- Python `x or y` on strings (empty string is falsy). -/
def pyOrStr (x y : String) : String := if x = "" then y else x

/-- Python `x or y` where `x` may be `None`. -/
def pyOptOr (x : Option String) (y : String) : String :=
  match x with
  | some s => pyOrStr s y
  | none => y

/-- Is `pat` a prefix of `cs`? -/
def startsWithL : List Char → List Char → Bool
  | _, [] => true
  | [], _ :: _ => false
  | c :: cs, d :: ds => (c = d) && startsWithL cs ds

/-- Python `pat in s` substring test. -/
def containsSub (cs pat : List Char) : Bool :=
  match cs with
  | [] => startsWithL [] pat
  | _ :: rest => startsWithL cs pat || containsSub rest pat

/-- `DETAIL_HREF_REGEX = re.compile(r"/detail/.*", re.IGNORECASE)` used via
`.search`: a case-insensitive substring test for `/detail/`. -/
def hasDetailHref (href : String) : Bool :=
  containsSub (href.data.map lowerCh) "/detail/".data

/-- `BASE_DOMAIN` from the parser module. -/
def BASE_DOMAIN : String := "https://www.sreality.cz"

/-- Strip the URL fragment: `urlparse(u)._replace(fragment="").geturl()`
truncates the URL at the first `#`. -/
def dropFragment (cs : List Char) : List Char := cs.takeWhile (fun c => c ≠ '#')

/-- `_normalize_url`, parameterised by `urljoin`, the URL-resolution
routine of `urllib.parse` (an external library treated as a collaborator:
theorems quantify over it and assume only that joining onto the absolute
`BASE_DOMAIN` never yields an empty string). -/
def normalize_url (urljoin : String → String → String) (href base_url : String) : String :=
  let absRaw := urljoin base_url ⟨pyStrip href.data⟩
  let absNoFrag : String := ⟨dropFragment absRaw.data⟩
  if containsSub absNoFrag.data "sreality.cz".data then absNoFrag
  else urljoin BASE_DOMAIN absNoFrag

/-- The title expression of `extract_listing_links`:
`(aria-label or title or text or url).strip() or url`. -/
def anchorTitle (a : Anchor) (urlAbs : String) : String :=
  pyOrStr ⟨pyStrip (pyOptOr a.ariaLabel (pyOptOr a.titleAttr (pyOrStr a.text urlAbs))).data⟩ urlAbs

/-- The anchor loop of `extract_listing_links`: skip non-detail hrefs,
dedup by id (first anchor wins), append, and break once
`len(results) >= max_links` — the check runs *after* the append. -/
def ellLoop (urljoin : String → String → String) (base_url : String) (max_links : Nat) :
    List Anchor → List String → List Listing → List Listing
  | [], _, acc => acc
  | a :: rest, seen, acc =>
    if hasDetailHref a.href then
      let urlAbs := normalize_url urljoin a.href base_url
      let lid := id_from_url urlAbs
      if lid ∈ seen then ellLoop urljoin base_url max_links rest seen acc
      else
        let acc' := acc ++ [⟨lid, urlAbs, anchorTitle a urlAbs⟩]
        if max_links ≤ acc'.length then acc'
        else ellLoop urljoin base_url max_links rest (seen ++ [lid]) acc'
    else ellLoop urljoin base_url max_links rest seen acc

/-- `extract_listing_links(html, base_url, max_links)`, with the
BeautifulSoup anchor scan defunctionalised to the list of anchors found in
document order. -/
def extract_listing_links (urljoin : String → String → String) (anchors : List Anchor)
    (base_url : String) (max_links : Nat) : List Listing :=
  ellLoop urljoin base_url max_links anchors [] []

/-! ## `extract_new_listings` — the dedup loop -/

/-- An item of the `new_items` result: the listing enriched with the parsed
fields.  Only `price_czk` ever influences control flow; the remaining
`parse_title_fields` outputs and the scraped `description` are opaque
payload and are omitted from the embedding. -/
structure Enriched where
  id : String
  url : String
  title : String
  price_czk : Option Int
deriving DecidableEq, Repr

/-- `key = f"{lid}:{price}" if price is not None else str(lid)` — the
dedup key of `extract_new_listings`. -/
def dedupKey (lid : String) (price : Option Int) : String :=
  match price with
  | some p => lid ++ ":" ++ intStr p
  | none => lid

/-- The result of one `extract_new_listings` call: the returned pair
`(new_items, total_found)` plus the final contents of the `seen_ids` set,
which the Python function mutates in place (`seen_ids.add(key)`). -/
structure ExtractResult where
  newItems : List Enriched
  seenAfter : List String
  total : Nat
deriving DecidableEq, Repr

/-- The candidate loop of `extract_new_listings`: parse the price from the
title, build the composite key, skip seen keys, otherwise deliver and mark
seen, stopping once `len(new_items) >= take` — checked *after* the
append. -/
def extractLoop : List Listing → List String → Nat → List Enriched → List Enriched × List String
  | [], seen, _, acc => (acc, seen)
  | it :: rest, seen, take, acc =>
    let price := parseTitlePrice it.title
    let key := dedupKey it.id price
    if key ∈ seen then extractLoop rest seen take acc
    else
      let acc' := acc ++ [⟨it.id, it.url, it.title, price⟩]
      let seen' := seen ++ [key]
      if take ≤ acc'.length then (acc', seen') else extractLoop rest seen' take acc'

/-- `extract_new_listings(url, seen_ids, scan_limit, take)` after the page
fetch: `listings` is the value of `extract_listing_links(html, url,
scan_limit)`; the function filters it against `seen_ids` and returns
`(new_items, len(listings))`, extending `seen_ids` with the accepted
keys. -/
def extract_new_listings (listings : List Listing) (seen : List String) (take : Nat) :
    ExtractResult :=
  let r := extractLoop listings seen take []
  ⟨r.1, r.2, listings.length⟩

/-! ## Association lists — Python dicts (insertion-ordered) -/

/-- Dict lookup `m.get(k)`. -/
def alookup {α : Type} : List (String × α) → String → Option α
  | [], _ => none
  | pr :: rest, k => if pr.1 = k then some pr.2 else alookup rest k

/-- Dict membership `k in m`. -/
def acontains {α : Type} (m : List (String × α)) (k : String) : Bool :=
  (alookup m k).isSome

/-- Dict assignment `m[k] = v`: update in place, else append. -/
def aset {α : Type} (m : List (String × α)) (k : String) (v : α) : List (String × α) :=
  if acontains m k then m.map fun pr => if pr.1 = k then (pr.1, v) else pr
  else m ++ [(k, v)]

/-- In-place mutation of the value object stored at `k`
(e.g. `self.threads[cid].interval_sec = sec`). -/
def amap {α : Type} (m : List (String × α)) (k : String) (f : α → α) : List (String × α) :=
  m.map fun pr => if pr.1 = k then (pr.1, f pr.2) else pr

/-! ## `JsonStateRepo` — `src/src/sreality/manager.py` -/

/-- One per-channel value in the state JSON: the old bare-id-list format,
the new id-to-timestamp map, or anything else. -/
inductive JEntry where
  | oldList (ids : List String)
  | tsMap (entries : List (String × Int))
  | other
deriving DecidableEq, Repr

/-- The backing file of the store: missing, unparsable (this includes a
zero-byte truncation, on which `json.load` raises), or parsed JSON data. -/
inductive FileState where
  | missing
  | corrupt
  | data (entries : List (String × JEntry))
deriving DecidableEq, Repr

/-- `_load_json(path, default)`: any read/parse failure yields `default`. -/
def load_json (fs : FileState) (default : List (String × JEntry)) : List (String × JEntry) :=
  match fs with
  | .data m => m
  | _ => default

/-- The `JsonStateRepo` state: the internal id-to-timestamp map `_ts_db`,
the inherited `MemoryStateRepo._db` of bare id sets, and the on-disk file
(every save rewrites it atomically via a temp file; crash-safety of
`os.replace` itself is not modelled). -/
structure JsonRepo where
  ts_db : List (String × List (String × Int))
  db : List (String × List String)
  file : FileState
deriving DecidableEq, Repr

/-- A Python dict built by inserting pairs left to right. -/
def dictOfPairs (prs : List (String × Int)) : List (String × Int) :=
  prs.foldl (fun m pr => aset m pr.1 pr.2) []

/-- `JsonStateRepo.__init__`'s per-channel conversion: an old-format list
gets `last_seen = 0.0` for every id, a new-format map keeps its (float)
timestamps, anything else becomes empty. -/
def entryToTs : JEntry → List (String × Int)
  | .oldList ids => ids.foldl (fun m lid => aset m lid 0) []
  | .tsMap entries => dictOfPairs entries
  | .other => []

/-- `JsonStateRepo.__init__(path)`: load (defaulting to `{}` on failure),
build `_ts_db`, then fill `_db` with the key sets. -/
def initRepo (fs : FileState) : JsonRepo :=
  let raw := load_json fs []
  let ts_db := raw.foldl (fun m pr => aset m pr.1 (entryToTs pr.2)) []
  { ts_db := ts_db
    db := ts_db.foldl (fun m pr => aset m pr.1 (pr.2.map Prod.fst).dedup) []
    file := fs }

/-- `get_seen(channel_id)`: `list(self._db.get(channel_id, set()))`. -/
def get_seen (repo : JsonRepo) (ch : String) : List String :=
  (alookup repo.db ch).getD []

/-- `save_seen(channel_id, seen_sorted)`: replace the in-memory `_db` set,
stamp every member of `seen_sorted` with `now` in `_ts_db` (ids already in
`_ts_db` but absent from `seen_sorted` are left untouched), then persist
the whole `_ts_db` to disk. -/
def save_seen (repo : JsonRepo) (ch : String) (seen_sorted : List String) (now : Int) :
    JsonRepo :=
  let db' := aset repo.db ch seen_sorted.dedup
  let ts0 := if acontains repo.ts_db ch then repo.ts_db else repo.ts_db ++ [(ch, [])]
  let chMap := (alookup ts0 ch).getD []
  let chMap' := seen_sorted.foldl (fun m lid => aset m lid now) chMap
  let ts' := aset ts0 ch chMap'
  { ts_db := ts'
    db := db'
    file := .data (ts'.map fun pr => (pr.1, JEntry.tsMap pr.2)) }

/-- `prune_old(channel_id, max_age_days)`: drop ids whose age exceeds
`max_age_days * 24 * 3600` seconds, update `_db`, persist; an empty or
missing per-channel map returns without touching anything. -/
def prune_old (repo : JsonRepo) (ch : String) (max_age_days : Nat) (now : Int) : JsonRepo :=
  let max_age_sec : Int := (max_age_days : Int) * 24 * 3600
  let id_map := (alookup repo.ts_db ch).getD []
  if id_map = [] then repo
  else
    let keep := id_map.filter fun pr => decide (now - pr.2 ≤ max_age_sec)
    let ts' := aset repo.ts_db ch keep
    { ts_db := ts'
      db := aset repo.db ch (keep.map Prod.fst).dedup
      file := .data (ts'.map fun pr => (pr.1, JEntry.tsMap pr.2)) }

/-- The per-channel timestamp entries of a repo (empty when absent). -/
def tsEntries (repo : JsonRepo) (ch : String) : List (String × Int) :=
  (alookup repo.ts_db ch).getD []

/-! ## One watcher tick — `Watcher.run` / `BezWatcher.run`

The tick body is embedded with its effectful collaborators
defunctionalised: `fetched` is the outcome of the page fetch plus link
extraction (`none` models a raised exception), and the Slack delivery
outcome is a parameter (`deliverOk` for the single batch post of
`BezWatcher`, a per-item `postOk` for the item-by-item posts of the
Sreality `Watcher`). -/

/-- Insertion into a sorted list of strings. -/
def insertSorted (x : String) : List String → List String
  | [] => [x]
  | y :: ys => if x ≤ y then x :: y :: ys else y :: insertSorted x ys

/-- Python `sorted(list(s))`. -/
def pySorted (l : List String) : List String := l.foldr insertSorted []

/-- Observable outcome of one tick: the store afterwards, the in-memory
`seen_ids`, the computed batch, whether `_save_seen` ran, and the items
actually delivered to Slack. -/
structure TickResult where
  repo : JsonRepo
  seenMem : List String
  newItems : List Enriched
  total : Nat
  saveCalled : Bool
  delivered : List Enriched
deriving Repr

/-- One `BezWatcher.run` tick (`src/bez_watcher.py`): prune with a 3-day
TTL, reload `seen_ids`, extract, then post the *whole batch* in one
`slack_post_blocks` call — if that raises (`deliverOk = false`) the
exception reaches the tick-level handler and `_save_seen` is skipped;
only on success is the updated seen set persisted. -/
def bezTick (repo₀ : JsonRepo) (key : String) (fetched : Option (List Listing))
    (deliverOk : Bool) (take : Nat) (now : Int) : TickResult :=
  let repo₁ := prune_old repo₀ key 3 now
  let seen := (get_seen repo₁ key).dedup
  match fetched with
  | none => ⟨repo₁, seen, [], 0, false, []⟩
  | some listings =>
    let r := extract_new_listings listings seen take
    if r.newItems = [] then ⟨repo₁, r.seenAfter, r.newItems, r.total, false, []⟩
    else if deliverOk then
      ⟨save_seen repo₁ key (pySorted r.seenAfter) now, r.seenAfter, r.newItems, r.total, true,
        r.newItems⟩
    else ⟨repo₁, r.seenAfter, r.newItems, r.total, false, []⟩

/-- One Sreality `Watcher.run` tick (`src/watcher.py`): same prune/reload
and extraction, but each item is posted in its own `try/except` that
swallows delivery failures, and `_save_seen` runs whenever the batch was
non-empty — regardless of how many posts succeeded. -/
def srealityTick (repo₀ : JsonRepo) (key : String) (fetched : Option (List Listing))
    (postOk : Enriched → Bool) (take : Nat) (now : Int) : TickResult :=
  let repo₁ := prune_old repo₀ key 3 now
  let seen := (get_seen repo₁ key).dedup
  match fetched with
  | none => ⟨repo₁, seen, [], 0, false, []⟩
  | some listings =>
    let r := extract_new_listings listings seen take
    if r.newItems = [] then ⟨repo₁, r.seenAfter, r.newItems, r.total, false, []⟩
    else
      ⟨save_seen repo₁ key (pySorted r.seenAfter) now, r.seenAfter, r.newItems, r.total, true,
        r.newItems.filter postOk⟩

/-! ## `BotManager._cmd_interval` — both manager variants

The manager state keeps the watcher configuration registry, the
channel-to-thread map and the stop events; each `Watcher` thread object is
identified by a generation number `gen` so that in-place mutation of a
running thread and replacement by a freshly constructed thread are
distinguishable.  Commands additionally emit an event trace recording the
side effects they perform. -/

/-- One entry of `watchers.json`. -/
structure WCfg where
  channel_id : String
  url : String
  interval : Int
deriving DecidableEq, Repr

/-- A live watcher thread: its identity (`gen`) and its mutable
`interval_sec` and `url` fields. -/
structure ThreadRec where
  gen : Nat
  interval_sec : Int
  url : String
deriving DecidableEq, Repr

/-- Supervisor state: config registry, live threads, stop events, and the
generation counter for freshly constructed threads. -/
structure MgrState where
  cfg : List (String × WCfg)
  threads : List (String × ThreadRec)
  stops : List (String × Bool)
  nextGen : Nat
deriving DecidableEq, Repr

/-- Side effects performed by a manager command. -/
inductive MgrEvent where
  | postText (channel : String)
  | saveConfig
  | setIntervalField (cid : String) (sec : Int)
  | setStop (cid : String)
  | joinThread (cid : String) (timeout : Nat)
  | startThread (cid : String) (interval : Int)
deriving DecidableEq, Repr

/-- Python `str.split()` (split on whitespace runs, no empty fields). -/
def pySplitAux : List Char → List Char → List (List Char)
  | [], cur => if cur = [] then [] else [cur.reverse]
  | c :: rest, cur =>
    if isSpaceCh c then
      if cur = [] then pySplitAux rest [] else cur.reverse :: pySplitAux rest []
    else pySplitAux rest (c :: cur)

/-- Python `tail.split()`. -/
def pySplit (s : String) : List String := (pySplitAux s.data []).map fun cs => ⟨cs⟩

/-- `BotManager._cmd_interval` of `src/src/sreality/manager.py`: after
parsing `interval <name> <seconds>` it mutates the *running* thread's
`interval_sec` field in place (`th.interval_sec = sec`) and rewrites the
config; no stop/join/restart happens. -/
def cmdIntervalSreality (st : MgrState) (channel_id : String) (tail : String) :
    MgrState × List MgrEvent :=
  match pySplit tail with
  | name :: secStr :: _ =>
    match alookup st.cfg name with
    | none => (st, [.postText channel_id])
    | some cfg =>
      match pyInt secStr.data with
      | none => (st, [.postText channel_id])
      | some sec =>
        let cid := cfg.channel_id
        if acontains st.threads cid then
          let st' := { st with
            threads := amap st.threads cid fun th => { th with interval_sec := sec }
            cfg := aset st.cfg name { cfg with interval := sec } }
          (st', [.setIntervalField cid sec, .saveConfig, .postText channel_id])
        else (st, [.postText channel_id])
  | _ => (st, [.postText channel_id])

/-- `BotManager._cmd_interval` of `src/bez_manager.py` (arguments arrive
already parsed): rewrite the config, signal the old loop's stop event,
join it with a 5-second timeout, then construct and start a fresh
`BezWatcher` with the new interval.  `HAVE_BEZ_WATCHER` is taken as true
(the deployment where the watcher module imports). -/
def cmdIntervalBez (st : MgrState) (source_channel_id short : String) (seconds : Int) :
    MgrState × List MgrEvent :=
  match alookup st.cfg short with
  | none => (st, [.postText source_channel_id])
  | some cfg =>
    let cid := cfg.channel_id
    let evStop := if acontains st.stops cid then [MgrEvent.setStop cid] else []
    let stops₁ := if acontains st.stops cid then amap st.stops cid (fun _ => true) else st.stops
    let evJoin := if acontains st.threads cid then [MgrEvent.joinThread cid 5] else []
    let th : ThreadRec := ⟨st.nextGen, seconds, cfg.url⟩
    let st' := { st with
      cfg := aset st.cfg short { cfg with interval := seconds }
      stops := aset stops₁ cid false
      threads := aset st.threads cid th
      nextGen := st.nextGen + 1 }
    (st', [MgrEvent.saveConfig] ++ evStop ++ evJoin ++
      [MgrEvent.startThread cid seconds, .postText source_channel_id])

/-! ## Association-list lemmas -/

theorem alookup_map_set {α : Type} (m : List (String × α)) (k : String) (v : α) :
    alookup (m.map fun pr => if pr.1 = k then (pr.1, v) else pr) k
      = (alookup m k).map fun _ => v := by
  induction m with
  | nil => rfl
  | cons pr rest ih =>
    by_cases h : pr.1 = k
    · simp [alookup, h]
    · simp [alookup, h, ih]

theorem alookup_map_set_ne {α : Type} (m : List (String × α)) (k k' : String) (v : α)
    (h : k' ≠ k) :
    alookup (m.map fun pr => if pr.1 = k then (pr.1, v) else pr) k' = alookup m k' := by
  induction m with
  | nil => rfl
  | cons pr rest ih =>
    by_cases hh : pr.1 = k
    · simp [alookup, hh, Ne.symm h, ih]
    · by_cases h2 : pr.1 = k' <;> simp [alookup, hh, h2, h, ih]

theorem alookup_append_single {α : Type} (m : List (String × α)) (k : String) (v : α) :
    alookup (m ++ [(k, v)]) k = some ((alookup m k).getD v) := by
  induction m with
  | nil => simp [alookup]
  | cons pr rest ih =>
    by_cases h : pr.1 = k <;> simp [alookup, h, ih]

theorem alookup_append_single_ne {α : Type} (m : List (String × α)) (k k' : String) (v : α)
    (h : k' ≠ k) : alookup (m ++ [(k, v)]) k' = alookup m k' := by
  induction m with
  | nil => simp [alookup, Ne.symm h]
  | cons pr rest ih =>
    by_cases hh : pr.1 = k' <;> simp [alookup, hh, ih]

theorem alookup_aset_self {α : Type} (m : List (String × α)) (k : String) (v : α) :
    alookup (aset m k v) k = some v := by
  unfold aset
  by_cases h : acontains m k = true
  · rw [if_pos h, alookup_map_set]
    unfold acontains at h
    cases hl : alookup m k with
    | none => rw [hl] at h; simp at h
    | some w => simp
  · rw [if_neg h, alookup_append_single]
    unfold acontains at h
    cases hl : alookup m k with
    | none => simp
    | some w => rw [hl] at h; simp at h

theorem alookup_aset_ne {α : Type} (m : List (String × α)) (k k' : String) (v : α)
    (h : k' ≠ k) : alookup (aset m k v) k' = alookup m k' := by
  unfold aset
  by_cases hc : acontains m k = true
  · rw [if_pos hc, alookup_map_set_ne _ _ _ _ h]
  · rw [if_neg hc, alookup_append_single_ne _ _ _ _ h]

theorem map_set_of_not_contains {α : Type} (m : List (String × α)) (k : String) (v : α)
    (h : alookup m k = none) :
    (m.map fun pr => if pr.1 = k then (pr.1, v) else pr) = m := by
  induction m with
  | nil => rfl
  | cons pr rest ih =>
    unfold alookup at h
    by_cases hh : pr.1 = k
    · rw [if_pos hh] at h; cases h
    · rw [if_neg hh] at h
      simp [hh, ih h]

theorem acontains_aset_self {α : Type} (m : List (String × α)) (k : String) (v : α) :
    acontains (aset m k v) k = true := by
  unfold acontains
  rw [alookup_aset_self]
  rfl

theorem aset_unfold_pos {α : Type} (m : List (String × α)) (k : String) (v : α)
    (h : acontains m k = true) :
    aset m k v = m.map fun pr => if pr.1 = k then (pr.1, v) else pr := by
  unfold aset
  rw [if_pos h]

theorem aset_unfold_neg {α : Type} (m : List (String × α)) (k : String) (v : α)
    (h : ¬acontains m k = true) : aset m k v = m ++ [(k, v)] := by
  unfold aset
  rw [if_neg h]

theorem aset_aset_same {α : Type} (m : List (String × α)) (k : String) (v w : α) :
    aset (aset m k v) k w = aset m k w := by
  have hc := acontains_aset_self m k v
  by_cases h : acontains m k = true
  · rw [aset_unfold_pos _ _ _ hc, aset_unfold_pos _ _ _ h, aset_unfold_pos _ _ _ h,
      List.map_map]
    apply List.map_congr_left
    intro pr _
    by_cases hh : pr.1 = k <;> simp [hh]
  · have hnone : alookup m k = none := by
      unfold acontains at h
      cases hl : alookup m k with
      | none => rfl
      | some w' => rw [hl] at h; simp at h
    have e1 : aset m k v = m ++ [(k, v)] := aset_unfold_neg m k v h
    have hc2 : acontains (m ++ [(k, v)]) k = true := by rw [← e1]; exact hc
    rw [e1, aset_unfold_pos _ _ _ hc2, aset_unfold_neg m k w h, List.map_append,
      map_set_of_not_contains m k w hnone]
    simp

theorem alookup_foldl_aset_of_not_mem {α : Type} (L : List String) (m₀ : List (String × α))
    (v : α) (x : String) (hx : x ∉ L) :
    alookup (L.foldl (fun m lid => aset m lid v) m₀) x = alookup m₀ x := by
  induction L generalizing m₀ with
  | nil => rfl
  | cons lid rest ih =>
    have hne : x ≠ lid := fun e => hx (e ▸ List.mem_cons_self lid rest)
    have hrest : x ∉ rest := fun e => hx (List.mem_cons_of_mem lid e)
    rw [List.foldl_cons, ih _ hrest, alookup_aset_ne _ _ _ _ hne]

theorem alookup_foldl_aset_of_mem {α : Type} (L : List String) (m₀ : List (String × α))
    (v : α) (x : String) (hx : x ∈ L) :
    alookup (L.foldl (fun m lid => aset m lid v) m₀) x = some v := by
  induction L generalizing m₀ with
  | nil => cases hx
  | cons lid rest ih =>
    rw [List.foldl_cons]
    by_cases hr : x ∈ rest
    · exact ih _ hr
    · have hxl : x = lid := by
        cases hx with
        | head => rfl
        | tail _ h => exact absurd h hr
      rw [alookup_foldl_aset_of_not_mem _ _ _ _ hr, hxl, alookup_aset_self]

/-! ## Pruning lemmas -/

theorem tsEntries_prune (repo : JsonRepo) (ch : String) (d : Nat) (now : Int) :
    tsEntries (prune_old repo ch d now) ch
      = (tsEntries repo ch).filter fun pr => decide (now - pr.2 ≤ (d : Int) * 24 * 3600) := by
  unfold prune_old tsEntries
  by_cases h : (alookup repo.ts_db ch).getD [] = []
  · rw [if_pos h, h]
    rfl
  · rw [if_neg h]
    simp only [alookup_aset_self]
    rfl

theorem prune_old_of_empty (repo : JsonRepo) (ch : String) (d : Nat) (now : Int)
    (h : tsEntries repo ch = []) : prune_old repo ch d now = repo := by
  unfold tsEntries at h
  unfold prune_old
  rw [if_pos h]

theorem prune_old_result (repo : JsonRepo) (ch : String) (d : Nat) (now : Int)
    (h : ¬tsEntries repo ch = []) :
    prune_old repo ch d now =
      { ts_db := aset repo.ts_db ch
          ((tsEntries repo ch).filter fun pr => decide (now - pr.2 ≤ (d : Int) * 24 * 3600))
        db := aset repo.db ch
          (((tsEntries repo ch).filter
            fun pr => decide (now - pr.2 ≤ (d : Int) * 24 * 3600)).map Prod.fst).dedup
        file := .data ((aset repo.ts_db ch
          ((tsEntries repo ch).filter
            fun pr => decide (now - pr.2 ≤ (d : Int) * 24 * 3600))).map
              fun pr => (pr.1, JEntry.tsMap pr.2)) } := by
  unfold tsEntries at h
  unfold prune_old
  rw [if_neg h]
  rfl

theorem prune_old_idempotent (repo : JsonRepo) (ch : String) (d : Nat) (now : Int) :
    prune_old (prune_old repo ch d now) ch d now = prune_old repo ch d now := by
  by_cases h : tsEntries repo ch = []
  · rw [prune_old_of_empty repo ch d now h, prune_old_of_empty repo ch d now h]
  · have hent := tsEntries_prune repo ch d now
    by_cases hk : (tsEntries repo ch).filter
        (fun pr => decide (now - pr.2 ≤ (d : Int) * 24 * 3600)) = []
    · exact prune_old_of_empty _ ch d now (by rw [hent, hk])
    · have hkf : ((tsEntries repo ch).filter
          (fun pr => decide (now - pr.2 ≤ (d : Int) * 24 * 3600))).filter
            (fun pr => decide (now - pr.2 ≤ (d : Int) * 24 * 3600))
          = (tsEntries repo ch).filter
            (fun pr => decide (now - pr.2 ≤ (d : Int) * 24 * 3600)) := by
        apply List.filter_eq_self.mpr
        intro a ha
        exact (List.mem_filter.mp ha).2
      rw [prune_old_result _ ch d now (by rw [hent]; exact hk), hent, hkf,
        prune_old_result repo ch d now h]
      simp only [aset_aset_same]

/-! ## Lemmas about the `extract_new_listings` loop -/

/-- The enriched record built for a candidate. -/
def enrichOf (it : Listing) : Enriched :=
  ⟨it.id, it.url, it.title, parseTitlePrice it.title⟩

/-- The dedup key computed for a candidate. -/
def keyOf (it : Listing) : String := dedupKey it.id (parseTitlePrice it.title)

/-- The dedup key of an enriched item as stored in its fields. -/
def keyOfE (e : Enriched) : String := dedupKey e.id e.price_czk

theorem extractLoop_cons (it : Listing) (rest : List Listing) (seen : List String)
    (take : Nat) (acc : List Enriched) :
    extractLoop (it :: rest) seen take acc =
      if keyOf it ∈ seen then extractLoop rest seen take acc
      else if take ≤ (acc ++ [enrichOf it]).length
        then (acc ++ [enrichOf it], seen ++ [keyOf it])
        else extractLoop rest (seen ++ [keyOf it]) take (acc ++ [enrichOf it]) := rfl

theorem extractLoop_acc_prefix (its : List Listing) (seen : List String) (take : Nat)
    (acc : List Enriched) : ∃ tl, (extractLoop its seen take acc).1 = acc ++ tl := by
  induction its generalizing seen acc with
  | nil => exact ⟨[], by simp [extractLoop]⟩
  | cons it rest ih =>
    rw [extractLoop_cons]
    by_cases h1 : keyOf it ∈ seen
    · rw [if_pos h1]; exact ih seen acc
    · rw [if_neg h1]
      by_cases h2 : take ≤ (acc ++ [enrichOf it]).length
      · rw [if_pos h2]; exact ⟨[enrichOf it], rfl⟩
      · rw [if_neg h2]
        obtain ⟨tl, htl⟩ := ih (seen ++ [keyOf it]) (acc ++ [enrichOf it])
        exact ⟨enrichOf it :: tl, by rw [htl]; simp⟩

theorem extractLoop_seen_mono (its : List Listing) (seen : List String) (take : Nat)
    (acc : List Enriched) (s : String) (hs : s ∈ seen) :
    s ∈ (extractLoop its seen take acc).2 := by
  induction its generalizing seen acc with
  | nil => exact hs
  | cons it rest ih =>
    rw [extractLoop_cons]
    by_cases h1 : keyOf it ∈ seen
    · rw [if_pos h1]; exact ih seen acc hs
    · rw [if_neg h1]
      by_cases h2 : take ≤ (acc ++ [enrichOf it]).length
      · rw [if_pos h2]; exact List.mem_append_left _ hs
      · rw [if_neg h2]; exact ih _ _ (List.mem_append_left _ hs)

theorem extractLoop_length_le (its : List Listing) (seen : List String) (take : Nat)
    (acc : List Enriched) (hacc : acc.length < take) :
    (extractLoop its seen take acc).1.length ≤ take := by
  induction its generalizing seen acc with
  | nil => exact Nat.le_of_lt hacc
  | cons it rest ih =>
    rw [extractLoop_cons]
    by_cases h1 : keyOf it ∈ seen
    · rw [if_pos h1]; exact ih seen acc hacc
    · rw [if_neg h1]
      by_cases h2 : take ≤ (acc ++ [enrichOf it]).length
      · rw [if_pos h2]
        simpa using hacc
      · rw [if_neg h2]
        exact ih _ _ (Nat.lt_of_not_le h2)

/-! ## Lemmas about the `extract_listing_links` loop -/

/-- The `{id, url, title}` record built from an anchor. -/
def anchorEntry (urljoin : String → String → String) (base_url : String) (a : Anchor) :
    Listing :=
  let urlAbs := normalize_url urljoin a.href base_url
  ⟨id_from_url urlAbs, urlAbs, anchorTitle a urlAbs⟩

/-- Does this anchor pass the `/detail/` filter and carry the given id? -/
def anchorMatches (urljoin : String → String → String) (base_url : String) (lid : String)
    (a : Anchor) : Bool :=
  hasDetailHref a.href && (id_from_url (normalize_url urljoin a.href base_url) == lid)

theorem ellLoop_cons (urljoin : String → String → String) (base_url : String)
    (max_links : Nat) (a : Anchor) (rest : List Anchor) (seen : List String)
    (acc : List Listing) :
    ellLoop urljoin base_url max_links (a :: rest) seen acc =
      if hasDetailHref a.href then
        if (anchorEntry urljoin base_url a).id ∈ seen then
          ellLoop urljoin base_url max_links rest seen acc
        else if max_links ≤ (acc ++ [anchorEntry urljoin base_url a]).length then
          acc ++ [anchorEntry urljoin base_url a]
        else ellLoop urljoin base_url max_links rest
          (seen ++ [(anchorEntry urljoin base_url a).id]) (acc ++ [anchorEntry urljoin base_url a])
      else ellLoop urljoin base_url max_links rest seen acc := rfl

theorem ellLoop_length_le (urljoin : String → String → String) (base_url : String)
    (max_links : Nat) (anchors : List Anchor) (seen : List String) (acc : List Listing)
    (hacc : acc.length < max_links) :
    (ellLoop urljoin base_url max_links anchors seen acc).length ≤ max_links := by
  induction anchors generalizing seen acc with
  | nil => exact Nat.le_of_lt hacc
  | cons a rest ih =>
    rw [ellLoop_cons]
    by_cases h0 : hasDetailHref a.href
    · rw [if_pos h0]
      by_cases h1 : (anchorEntry urljoin base_url a).id ∈ seen
      · rw [if_pos h1]; exact ih seen acc hacc
      · rw [if_neg h1]
        by_cases h2 : max_links ≤ (acc ++ [anchorEntry urljoin base_url a]).length
        · rw [if_pos h2]
          simpa using hacc
        · rw [if_neg h2]
          exact ih _ _ (Nat.lt_of_not_le h2)
    · rw [if_neg h0]; exact ih seen acc hacc

theorem ellLoop_nodup (urljoin : String → String → String) (base_url : String)
    (max_links : Nat) (anchors : List Anchor) (seen : List String) (acc : List Listing)
    (hinv : seen = acc.map fun l => l.id) (hnd : seen.Nodup) :
    ((ellLoop urljoin base_url max_links anchors seen acc).map fun l => l.id).Nodup := by
  induction anchors generalizing seen acc with
  | nil => exact hinv ▸ hnd
  | cons a rest ih =>
    rw [ellLoop_cons]
    by_cases h0 : hasDetailHref a.href
    · rw [if_pos h0]
      by_cases h1 : (anchorEntry urljoin base_url a).id ∈ seen
      · rw [if_pos h1]; exact ih seen acc hinv hnd
      · rw [if_neg h1]
        have hnd' : (seen ++ [(anchorEntry urljoin base_url a).id]).Nodup := by
          rw [List.nodup_append]
          refine ⟨hnd, List.nodup_singleton _, ?_⟩
          intro x hx hx1
          rw [List.mem_singleton.mp hx1] at hx
          exact h1 hx
        have hinv' : seen ++ [(anchorEntry urljoin base_url a).id]
            = (acc ++ [anchorEntry urljoin base_url a]).map fun l => l.id := by
          rw [List.map_append, ← hinv]
          rfl
        by_cases h2 : max_links ≤ (acc ++ [anchorEntry urljoin base_url a]).length
        · rw [if_pos h2, ← hinv']
          exact hnd'
        · rw [if_neg h2]
          exact ih _ _ hinv' hnd'
    · rw [if_neg h0]; exact ih seen acc hinv hnd

theorem ellLoop_first_wins (urljoin : String → String → String) (base_url : String)
    (max_links : Nat) (anchors : List Anchor) (seen : List String) (acc : List Listing)
    (r : Listing) (hr : r ∈ ellLoop urljoin base_url max_links anchors seen acc) :
    r ∈ acc ∨ (r.id ∉ seen ∧
      ∃ a, anchors.find? (anchorMatches urljoin base_url r.id) = some a ∧
        r = anchorEntry urljoin base_url a) := by
  induction anchors generalizing seen acc with
  | nil => exact Or.inl hr
  | cons a rest ih =>
    rw [ellLoop_cons] at hr
    by_cases h0 : hasDetailHref a.href
    · rw [if_pos h0] at hr
      by_cases h1 : (anchorEntry urljoin base_url a).id ∈ seen
      · rw [if_pos h1] at hr
        rcases ih seen acc hr with h | ⟨hrs, b, hfind, hrb⟩
        · exact Or.inl h
        · right
          refine ⟨hrs, b, ?_, hrb⟩
          rw [List.find?_cons_of_neg, hfind]
          unfold anchorMatches
          rw [h0]
          simp only [Bool.true_and, beq_iff_eq]
          intro he
          exact hrs (he ▸ h1)
      · rw [if_neg h1] at hr
        by_cases h2 : max_links ≤ (acc ++ [anchorEntry urljoin base_url a]).length
        · rw [if_pos h2] at hr
          rcases List.mem_append.mp hr with h | h
          · exact Or.inl h
          · right
            have heq : r = anchorEntry urljoin base_url a := List.mem_singleton.mp h
            have hpa : anchorMatches urljoin base_url r.id a = true := by
              simp only [anchorMatches, h0, Bool.true_and, beq_iff_eq, heq]
              rfl
            exact ⟨heq ▸ h1, a, List.find?_cons_of_pos _ hpa, heq⟩
        · rw [if_neg h2] at hr
          rcases ih _ _ hr with h | ⟨hrs, b, hfind, hrb⟩
          · rcases List.mem_append.mp h with h' | h'
            · exact Or.inl h'
            · right
              have heq : r = anchorEntry urljoin base_url a := List.mem_singleton.mp h'
              have hpa : anchorMatches urljoin base_url r.id a = true := by
                simp only [anchorMatches, h0, Bool.true_and, beq_iff_eq, heq]
                rfl
              exact ⟨heq ▸ h1, a, List.find?_cons_of_pos _ hpa, heq⟩
          · right
            have hrs' : r.id ∉ seen := fun hx => hrs (List.mem_append_left _ hx)
            have hrid : r.id ≠ (anchorEntry urljoin base_url a).id := by
              intro he
              exact hrs (List.mem_append_right _ (he ▸ List.mem_singleton_self _))
            refine ⟨hrs', b, ?_, hrb⟩
            rw [List.find?_cons_of_neg, hfind]
            unfold anchorMatches
            rw [h0]
            simp only [Bool.true_and, beq_iff_eq]
            intro he
            exact hrid he.symm
    · rw [if_neg h0] at hr
      rcases ih seen acc hr with h | ⟨hrs, b, hfind, hrb⟩
      · exact Or.inl h
      · right
        refine ⟨hrs, b, ?_, hrb⟩
        rw [List.find?_cons_of_neg, hfind]
        unfold anchorMatches
        simp [h0]


theorem extractLoop_new_not_seen (its : List Listing) (seen : List String) (take : Nat)
    (acc : List Enriched) (e : Enriched) (he : e ∈ (extractLoop its seen take acc).1) :
    e ∈ acc ∨ keyOfE e ∉ seen := by
  induction its generalizing seen acc with
  | nil => exact Or.inl he
  | cons it rest ih =>
    rw [extractLoop_cons] at he
    by_cases h1 : keyOf it ∈ seen
    · rw [if_pos h1] at he; exact ih seen acc he
    · rw [if_neg h1] at he
      by_cases h2 : take ≤ (acc ++ [enrichOf it]).length
      · rw [if_pos h2] at he
        rcases List.mem_append.mp he with hacc | hnew
        · exact Or.inl hacc
        · right
          have : e = enrichOf it := List.mem_singleton.mp hnew
          rw [this]
          exact h1
      · rw [if_neg h2] at he
        rcases ih _ _ he with hacc | hkey
        · rcases List.mem_append.mp hacc with h | h
          · exact Or.inl h
          · right
            have : e = enrichOf it := List.mem_singleton.mp h
            rw [this]
            exact h1
        · right
          intro hs
          exact hkey (List.mem_append_left _ hs)

theorem extractLoop_key_in_seenAfter (its : List Listing) (seen : List String) (take : Nat)
    (acc : List Enriched) (e : Enriched) (he : e ∈ (extractLoop its seen take acc).1) :
    e ∈ acc ∨ keyOfE e ∈ (extractLoop its seen take acc).2 := by
  induction its generalizing seen acc with
  | nil => exact Or.inl he
  | cons it rest ih =>
    rw [extractLoop_cons] at he ⊢
    by_cases h1 : keyOf it ∈ seen
    · rw [if_pos h1] at he ⊢; exact ih seen acc he
    · rw [if_neg h1] at he ⊢
      by_cases h2 : take ≤ (acc ++ [enrichOf it]).length
      · rw [if_pos h2] at he ⊢
        rcases List.mem_append.mp he with hacc | hnew
        · exact Or.inl hacc
        · right
          have heq : e = enrichOf it := List.mem_singleton.mp hnew
          have : keyOfE e = keyOf it := by rw [heq]; rfl
          rw [this]
          exact List.mem_append_right _ (List.mem_singleton_self _)
      · rw [if_neg h2] at he ⊢
        rcases ih _ _ he with hacc | hkey
        · rcases List.mem_append.mp hacc with h | h
          · exact Or.inl h
          · right
            have heq : e = enrichOf it := List.mem_singleton.mp h
            have hk : keyOfE e = keyOf it := by rw [heq]; rfl
            rw [hk]
            exact extractLoop_seen_mono _ _ _ _ _
              (List.mem_append_right _ (List.mem_singleton_self _))
        · exact Or.inr hkey

theorem extractLoop_seenAfter_charact (its : List Listing) (seen : List String) (take : Nat)
    (acc : List Enriched) (s : String) (hs : s ∈ (extractLoop its seen take acc).2) :
    s ∈ seen ∨ ∃ e, e ∈ (extractLoop its seen take acc).1 ∧ s = keyOfE e := by
  induction its generalizing seen acc with
  | nil => exact Or.inl hs
  | cons it rest ih =>
    rw [extractLoop_cons] at hs ⊢
    by_cases h1 : keyOf it ∈ seen
    · rw [if_pos h1] at hs ⊢; exact ih seen acc hs
    · rw [if_neg h1] at hs ⊢
      by_cases h2 : take ≤ (acc ++ [enrichOf it]).length
      · rw [if_pos h2] at hs ⊢
        rcases List.mem_append.mp hs with h | h
        · exact Or.inl h
        · right
          refine ⟨enrichOf it, List.mem_append_right _ (List.mem_singleton_self _), ?_⟩
          rw [List.mem_singleton.mp h]
          rfl
      · rw [if_neg h2] at hs ⊢
        rcases ih _ _ hs with h | ⟨e, he, hkey⟩
        · rcases List.mem_append.mp h with h' | h'
          · exact Or.inl h'
          · right
            obtain ⟨tl, htl⟩ := extractLoop_acc_prefix rest (seen ++ [keyOf it]) take
              (acc ++ [enrichOf it])
            refine ⟨enrichOf it, ?_, ?_⟩
            · rw [htl]
              exact List.mem_append_left _ (List.mem_append_right _ (List.mem_singleton_self _))
            · rw [List.mem_singleton.mp h']
              rfl
        · exact Or.inr ⟨e, he, hkey⟩

/-! ## Non-empty ids, key injectivity, and singleton-run lemmas -/

theorem idSearch_length : ∀ cs run : List Char, idSearch cs = some run → 6 ≤ run.length := by
  intro cs
  induction cs with
  | nil => intro run h; cases h
  | cons c rest ih =>
    intro run h
    simp only [idSearch] at h
    split at h
    · rename_i hcond
      cases h
      exact hcond.2.1
    · exact ih run h

theorem string_ne_empty_of_data_ne (s : String) (h : s.data ≠ []) : s ≠ "" :=
  fun he => h (by rw [he])

theorem containsSub_nonempty (cs pat : List Char) (hpat : pat ≠ [])
    (h : containsSub cs pat = true) : cs ≠ [] := by
  intro hcs
  subst hcs
  cases pat with
  | nil => exact hpat rfl
  | cons p ps => simp [containsSub, startsWithL] at h

theorem id_from_url_ne_empty (urlAbs : String) (h : urlAbs ≠ "") : id_from_url urlAbs ≠ "" := by
  unfold id_from_url
  cases hs : idSearch urlAbs.data with
  | none => exact h
  | some run =>
    have h6 := idSearch_length urlAbs.data run hs
    intro he
    have hrun : run = [] := congrArg String.data he
    rw [hrun] at h6
    simp at h6

theorem normalize_url_ne_empty (urljoin : String → String → String)
    (hbase : ∀ s, urljoin BASE_DOMAIN s ≠ "") (href base_url : String) :
    normalize_url urljoin href base_url ≠ "" := by
  unfold normalize_url
  by_cases hc : containsSub (dropFragment (urljoin base_url ⟨pyStrip href.data⟩).data)
      "sreality.cz".data = true
  · simp only [hc, if_true]
    exact string_ne_empty_of_data_ne _ (containsSub_nonempty _ _ (by simp) hc)
  · simp only [hc, if_false]
    exact hbase _

/-- Appending to the absolute base domain never yields the empty string
(the property of `urljoin` the non-empty-id claim relies on, witnessed here
for the plain-concatenation instantiation). -/
theorem base_append_ne_empty (s : String) : BASE_DOMAIN ++ s ≠ "" := by
  intro he
  have hd := congrArg String.data he
  rw [String.data_append] at hd
  have : BASE_DOMAIN.data = [] := List.append_eq_nil.mp hd |>.1
  simp [BASE_DOMAIN] at this

theorem string_append_left_cancel (a b c : String) (h : a ++ b = a ++ c) : b = c := by
  have hd := congrArg String.data h
  rw [String.data_append, String.data_append] at hd
  exact String.ext (List.append_cancel_left hd)

/-- Distinct prices yield distinct composite dedup keys for the same id. -/
theorem dedupKey_some_inj (lid : String) (p q : Int) (h : q ≠ p) :
    dedupKey lid (some q) ≠ dedupKey lid (some p) := by
  intro he
  have he' : (lid ++ ":") ++ intStr q = (lid ++ ":") ++ intStr p := he
  exact h (intStr_injective (string_append_left_cancel _ _ _ he'))

theorem extract_singleton_skip (it : Listing) (S : List String) (k : Nat)
    (h : keyOf it ∈ S) : extract_new_listings [it] S k = ⟨[], S, 1⟩ := by
  unfold extract_new_listings
  rw [extractLoop_cons, if_pos h]
  rfl

theorem extract_singleton_new (it : Listing) (S : List String) (k : Nat)
    (h : keyOf it ∉ S) :
    extract_new_listings [it] S k = ⟨[enrichOf it], S ++ [keyOf it], 1⟩ := by
  unfold extract_new_listings
  rw [extractLoop_cons, if_neg h]
  by_cases h2 : k ≤ ([] ++ [enrichOf it] : List Enriched).length
  · rw [if_pos h2]
    rfl
  · rw [if_neg h2]
    rfl

/-! ## Claim theorems -/

/-- C9: for every store whose backing file is missing, truncated to zero
bytes, or otherwise unparsable, constructing `JsonStateRepo` yields an
empty store — `get_seen` returns the empty set for every key — and does
not raise (the embedded constructor is a total function), so watcher
startup proceeds with empty history. -/
theorem initRepo_failure_empty (fs : FileState)
    (h : fs = FileState.missing ∨ fs = FileState.corrupt) :
    (∀ k, get_seen (initRepo fs) k = []) ∧ (initRepo fs).ts_db = [] := by
  rcases h with h | h <;> subst h <;> exact ⟨fun _ => rfl, rfl⟩

/-- Witness for C9: a corrupt (e.g. zero-byte) file loads as an empty
store. -/
theorem initRepo_failure_empty_witness :
    get_seen (initRepo FileState.corrupt) "C42" = [] :=
  (initRepo_failure_empty FileState.corrupt (Or.inr rfl)).1 "C42"

/-- C6: after `prune_old(key, H)` with horizon `H = max_age_days * 24 *
3600` seconds, no entry for that key has `now - lastSeen > H`; an entry
with `lastSeen = now - (H + 1)` is absent while one with `lastSeen = now -
(H - 1)` survives; pruning is idempotent at the same instant and never
restores an evicted entry (the pruned map is a sub-collection of the
original). -/
theorem prune_ttl_eviction (repo : JsonRepo) (ch : String) (days : Nat) (now : Int) :
    (∀ lid ts, (lid, ts) ∈ tsEntries (prune_old repo ch days now) ch →
        now - ts ≤ (days : Int) * 24 * 3600) ∧
    (∀ lid, (lid, now - ((days : Int) * 24 * 3600 + 1)) ∉
        tsEntries (prune_old repo ch days now) ch) ∧
    (∀ lid, (lid, now - ((days : Int) * 24 * 3600 - 1)) ∈ tsEntries repo ch →
        (lid, now - ((days : Int) * 24 * 3600 - 1)) ∈
          tsEntries (prune_old repo ch days now) ch) ∧
    prune_old (prune_old repo ch days now) ch days now = prune_old repo ch days now ∧
    (∀ pr, pr ∈ tsEntries (prune_old repo ch days now) ch → pr ∈ tsEntries repo ch) := by
  have hp := tsEntries_prune repo ch days now
  refine ⟨?_, ?_, ?_, prune_old_idempotent repo ch days now, ?_⟩
  · intro lid ts hmem
    rw [hp] at hmem
    exact of_decide_eq_true (List.mem_filter.mp hmem).2
  · intro lid hmem
    rw [hp] at hmem
    have := of_decide_eq_true (List.mem_filter.mp hmem).2
    omega
  · intro lid hmem
    rw [hp]
    refine List.mem_filter.mpr ⟨hmem, ?_⟩
    exact decide_eq_true (by omega)
  · intro pr hmem
    rw [hp] at hmem
    exact (List.mem_filter.mp hmem).1

/-- Witness for C6 with `max_age_days = 1` (`H = 86400`), `now = 100`:
the entry one second beyond the horizon is evicted, the one just inside
survives. -/
theorem prune_ttl_eviction_witness :
    ("b", (100 : Int) - (((1 : Nat) : Int) * 24 * 3600 - 1)) ∈
      tsEntries (prune_old (initRepo (FileState.data [("C", JEntry.tsMap
        [("a", 100 - (((1 : Nat) : Int) * 24 * 3600 + 1)),
         ("b", 100 - (((1 : Nat) : Int) * 24 * 3600 - 1))])])) "C" 1 100) "C" ∧
    ("a", (100 : Int) - (((1 : Nat) : Int) * 24 * 3600 + 1)) ∉
      tsEntries (prune_old (initRepo (FileState.data [("C", JEntry.tsMap
        [("a", 100 - (((1 : Nat) : Int) * 24 * 3600 + 1)),
         ("b", 100 - (((1 : Nat) : Int) * 24 * 3600 - 1))])])) "C" 1 100) "C" :=
  ⟨(prune_ttl_eviction (initRepo (FileState.data [("C", JEntry.tsMap
        [("a", 100 - (((1 : Nat) : Int) * 24 * 3600 + 1)),
         ("b", 100 - (((1 : Nat) : Int) * 24 * 3600 - 1))])])) "C" 1 100).2.2.1 "b" (by decide),
   (prune_ttl_eviction (initRepo (FileState.data [("C", JEntry.tsMap
        [("a", 100 - (((1 : Nat) : Int) * 24 * 3600 + 1)),
         ("b", 100 - (((1 : Nat) : Int) * 24 * 3600 - 1))])])) "C" 1 100).2.1 "a"⟩

/-- C7 counterexample: `save_seen` does replace the in-memory set (a
direct `get_seen` shows only the new list), but an id previously stored
under the key and absent from the new list is still present in the
persisted file, so it reappears in `get_seen` after the state is reloaded
from disk — contradicting "no longer present ... in the state reloaded
from the persistence file". -/
theorem save_seen_stale_id_resurrected :
    get_seen (save_seen (initRepo (FileState.data [("C", JEntry.tsMap [("a", 0)])]))
        "C" ["b"] 5) "C" = ["b"] ∧
    "a" ∉ (["b"] : List String) ∧
    "a" ∈ get_seen (initRepo (save_seen (initRepo (FileState.data
        [("C", JEntry.tsMap [("a", 0)])])) "C" ["b"] 5).file) "C" := by
  decide

/-- C7 amended: `save_seen(key, L)` replaces the in-memory set for the key
with exactly the members of `L` (so a subsequent `get_seen` sees exactly
`L`) and stamps every member of `L` with `now` in the timestamp map, and
the whole timestamp map is what gets persisted; however an id previously
stored under the key but absent from `L` keeps its old entry in the
timestamp map (and hence in the persisted file), to be removed only later
by TTL pruning. -/
theorem save_seen_replaces_memory_set (repo : JsonRepo) (ch : String) (L : List String)
    (now : Int) :
    (∀ x, x ∈ get_seen (save_seen repo ch L now) ch ↔ x ∈ L) ∧
    (∀ x, x ∈ L → alookup (tsEntries (save_seen repo ch L now) ch) x = some now) ∧
    (∀ x ts, alookup (tsEntries repo ch) x = some ts → x ∉ L →
        alookup (tsEntries (save_seen repo ch L now) ch) x = some ts) ∧
    (save_seen repo ch L now).file
      = FileState.data ((save_seen repo ch L now).ts_db.map fun pr => (pr.1, JEntry.tsMap pr.2)) := by
  have hts : tsEntries (save_seen repo ch L now) ch
      = L.foldl (fun m lid => aset m lid now)
          ((alookup (if acontains repo.ts_db ch = true then repo.ts_db
            else repo.ts_db ++ [(ch, [])]) ch).getD []) := by
    show (alookup (aset _ ch _) ch).getD [] = _
    rw [alookup_aset_self]
    rfl
  refine ⟨?_, ?_, ?_, rfl⟩
  · intro x
    show x ∈ (alookup (aset repo.db ch L.dedup) ch).getD [] ↔ x ∈ L
    rw [alookup_aset_self]
    exact List.mem_dedup
  · intro x hx
    rw [hts]
    exact alookup_foldl_aset_of_mem L _ now x hx
  · intro x ts hx hnx
    rw [hts, alookup_foldl_aset_of_not_mem L _ now x hnx]
    by_cases hc : acontains repo.ts_db ch = true
    · rw [if_pos hc]
      exact hx
    · rw [if_neg hc, alookup_append_single]
      exact hx

/-- Witness for C7 (amended): saving `["b"]` at time 7 makes `"b"` seen
and stamps it with 7. -/
theorem save_seen_replaces_memory_set_witness :
    ("b" ∈ get_seen (save_seen (initRepo FileState.missing) "C" ["b"] 7) "C") ∧
    alookup (tsEntries (save_seen (initRepo FileState.missing) "C" ["b"] 7) "C") "b"
      = some 7 :=
  ⟨((save_seen_replaces_memory_set (initRepo FileState.missing) "C" ["b"] 7).1 "b").mpr
      (by decide),
   (save_seen_replaces_memory_set (initRepo FileState.missing) "C" ["b"] 7).2.1 "b"
      (by decide)⟩

/-- C4 counterexample: the stop check runs *after* the append
(`if len(new_items) >= take: break`), so with `take = 0` the loop still
returns one item — "at most `k` accepted items" fails for `k = 0`. -/
theorem extract_take_zero_returns_one :
    (extract_new_listings [⟨"2", "u", "t"⟩] [] 0).newItems.length = 1 ∧
    ¬(extract_new_listings [⟨"2", "u", "t"⟩] [] 0).newItems.length ≤ 0 := by
  decide

/-- C4 amended: for every limit `k ≥ 1`, `extract_new_listings` returns at
most `k` accepted items even when more candidates are novel, the reported
scan total is the number of candidates found, and every key added to the
seen set is the key of a returned item (candidates beyond the k-th
acceptance are neither returned nor marked seen, so they stay eligible);
the spec's worked example behaves as claimed. -/
theorem extract_at_most_limit (listings : List Listing) (S : List String) (k : Nat)
    (hk : 1 ≤ k) :
    (extract_new_listings listings S k).newItems.length ≤ k ∧
    (extract_new_listings listings S k).total = listings.length ∧
    (∀ s, s ∈ (extract_new_listings listings S k).seenAfter →
        s ∈ S ∨ ∃ e, e ∈ (extract_new_listings listings S k).newItems ∧ s = keyOfE e) ∧
    ((extract_new_listings [⟨"1", "u1", "t"⟩, ⟨"2", "u2", "t"⟩, ⟨"3", "u3", "t"⟩]
        ["1"] 2).newItems.map (fun e => e.id) = ["2", "3"] ∧
      (extract_new_listings [⟨"1", "u1", "t"⟩, ⟨"2", "u2", "t"⟩, ⟨"3", "u3", "t"⟩]
        ["1"] 2).seenAfter = ["1", "2", "3"] ∧
      (extract_new_listings [⟨"1", "u1", "t"⟩, ⟨"2", "u2", "t"⟩, ⟨"3", "u3", "t"⟩]
        ["1"] 2).total = 3) := by
  refine ⟨extractLoop_length_le listings S k [] hk, rfl, ?_, by decide⟩
  intro s hs
  rcases extractLoop_seenAfter_charact listings S k [] s hs with h | ⟨e, he, hkey⟩
  · exact Or.inl h
  · exact Or.inr ⟨e, he, hkey⟩

/-- Witness for C4 (amended) at `k = 1` with two novel candidates: only
one is returned. -/
theorem extract_at_most_limit_witness :
    (extract_new_listings [⟨"2", "u", "t"⟩, ⟨"3", "u", "t"⟩] [] 1).newItems.length ≤ 1 :=
  (extract_at_most_limit [⟨"2", "u", "t"⟩, ⟨"3", "u", "t"⟩] [] 1 (by decide)).1

/-- C5 counterexample: `extract_new_listings` is not pure in its seen-set
argument — it extends `seen_ids` in place (modelled by `seenAfter`), so a
second call over the set object left by the first call returns `[]`
instead of the first call's non-empty output: the call itself changed the
novelty verdicts seen by the second call. -/
theorem extract_rerun_differs :
    (extract_new_listings [⟨"2", "u", "t"⟩] [] 10).newItems ≠ [] ∧
    (extract_new_listings [⟨"2", "u", "t"⟩] [] 10).seenAfter ≠ [] ∧
    (extract_new_listings [⟨"2", "u", "t"⟩]
        (extract_new_listings [⟨"2", "u", "t"⟩] [] 10).seenAfter 10).newItems
      ≠ (extract_new_listings [⟨"2", "u", "t"⟩] [] 10).newItems := by
  decide

/-- C5 amended: the function is deterministic in the value of its
arguments (it is a pure state-passing function in the embedding), but it
returns an extended seen set containing the key of every returned item, so
re-running it over the seen set it produced never returns any item of the
first run again. -/
theorem extract_no_redelivery_after_mutation (C : List Listing) (S : List String) (k : Nat)
    (e : Enriched) (he : e ∈ (extract_new_listings C S k).newItems) :
    keyOfE e ∈ (extract_new_listings C S k).seenAfter ∧
    e ∉ (extract_new_listings C (extract_new_listings C S k).seenAfter k).newItems := by
  have h1 := extractLoop_key_in_seenAfter C S k [] e he
  have hkey : keyOfE e ∈ (extract_new_listings C S k).seenAfter := by
    rcases h1 with h | h
    · cases h
    · exact h
  refine ⟨hkey, ?_⟩
  intro habs
  rcases extractLoop_new_not_seen C (extract_new_listings C S k).seenAfter k [] e habs with
    h | h
  · cases h
  · exact h hkey

/-- Witness for C5 (amended): the item returned by the first run is absent
from a rerun over the mutated seen set. -/
theorem extract_no_redelivery_after_mutation_witness :
    ⟨"2", "u", "t", parseTitlePrice "t"⟩ ∉
      (extract_new_listings [⟨"2", "u", "t"⟩]
        (extract_new_listings [⟨"2", "u", "t"⟩] [] 10).seenAfter 10).newItems :=
  (extract_no_redelivery_after_mutation [⟨"2", "u", "t"⟩] [] 10
    ⟨"2", "u", "t", parseTitlePrice "t"⟩ (by decide)).2

/-- C1: the dedup key of a candidate with parsed price `p` is the
composite string `"identity:p"` (identity alone when the price is
unavailable); an item whose key is already in the seen set is never
returned; a first observation at price `p` is returned and records
`"id:p"`, after which a re-observation at the same price is skipped while
an observation at any different price is returned again as new; a
candidate with an unparsable price is keyed by identity alone, so once its
identity is seen it is never returned again no matter how its other
attributes drift. -/
theorem price_in_dedup_key (lid u₁ u₂ u₃ t₁ t₂ t₃ : String) (p q : Int)
    (S : List String) (k : Nat)
    (h₁ : parseTitlePrice t₁ = some p) (h₂ : parseTitlePrice t₂ = some p)
    (h₃ : parseTitlePrice t₃ = some q) (hqp : q ≠ p)
    (hSp : dedupKey lid (some p) ∉ S) (hSq : dedupKey lid (some q) ∉ S) :
    dedupKey lid (some p) = lid ++ ":" ++ intStr p ∧
    dedupKey lid none = lid ∧
    (∀ (listings : List Listing) (S' : List String) (k' : Nat) e,
        e ∈ (extract_new_listings listings S' k').newItems → keyOfE e ∉ S') ∧
    (extract_new_listings [⟨lid, u₁, t₁⟩] S k).newItems = [⟨lid, u₁, t₁, some p⟩] ∧
    (extract_new_listings [⟨lid, u₂, t₂⟩]
        (extract_new_listings [⟨lid, u₁, t₁⟩] S k).seenAfter k).newItems = [] ∧
    (extract_new_listings [⟨lid, u₃, t₃⟩]
        (extract_new_listings [⟨lid, u₁, t₁⟩] S k).seenAfter k).newItems
      = [⟨lid, u₃, t₃, some q⟩] ∧
    (∀ (u t : String) (S' : List String), parseTitlePrice t = none → lid ∈ S' →
        (extract_new_listings [⟨lid, u, t⟩] S' k).newItems = []) ∧
    (∀ (u t : String) (S' : List String), parseTitlePrice t = none → lid ∉ S' →
        (extract_new_listings [⟨lid, u, t⟩] S' k).newItems = [⟨lid, u, t, none⟩] ∧
        lid ∈ (extract_new_listings [⟨lid, u, t⟩] S' k).seenAfter) := by
  have hkey₁ : keyOf ⟨lid, u₁, t₁⟩ = dedupKey lid (some p) := by
    unfold keyOf
    rw [h₁]
  have hrun₁ : extract_new_listings [⟨lid, u₁, t₁⟩] S k
      = ⟨[enrichOf ⟨lid, u₁, t₁⟩], S ++ [keyOf ⟨lid, u₁, t₁⟩], 1⟩ :=
    extract_singleton_new _ S k (hkey₁ ▸ hSp)
  have henrich₁ : enrichOf ⟨lid, u₁, t₁⟩ = ⟨lid, u₁, t₁, some p⟩ := by
    unfold enrichOf
    rw [h₁]
  refine ⟨rfl, rfl, ?_, ?_, ?_, ?_, ?_, ?_⟩
  · intro listings S' k' e he
    rcases extractLoop_new_not_seen listings S' k' [] e he with h | h
    · cases h
    · exact h
  · rw [hrun₁, henrich₁]
  · have hkey₂ : keyOf ⟨lid, u₂, t₂⟩ = dedupKey lid (some p) := by
      unfold keyOf
      rw [h₂]
    have hmem : keyOf ⟨lid, u₂, t₂⟩ ∈ (extract_new_listings [⟨lid, u₁, t₁⟩] S k).seenAfter := by
      rw [hrun₁]
      show keyOf ⟨lid, u₂, t₂⟩ ∈ S ++ [keyOf ⟨lid, u₁, t₁⟩]
      rw [hkey₂, hkey₁]
      exact List.mem_append_right _ (List.mem_singleton_self _)
    rw [extract_singleton_skip _ _ k hmem]
  · have hkey₃ : keyOf ⟨lid, u₃, t₃⟩ = dedupKey lid (some q) := by
      unfold keyOf
      rw [h₃]
    have hnot : keyOf ⟨lid, u₃, t₃⟩ ∉ (extract_new_listings [⟨lid, u₁, t₁⟩] S k).seenAfter := by
      rw [hrun₁]
      show keyOf ⟨lid, u₃, t₃⟩ ∉ S ++ [keyOf ⟨lid, u₁, t₁⟩]
      rw [hkey₃, hkey₁]
      intro hmem
      rcases List.mem_append.mp hmem with h | h
      · exact hSq h
      · exact dedupKey_some_inj lid p q hqp (List.mem_singleton.mp h)
    rw [extract_singleton_new _ _ k hnot]
    show [enrichOf ⟨lid, u₃, t₃⟩] = _
    unfold enrichOf
    rw [h₃]
  · intro u t S' ht hS'
    have hkey : keyOf ⟨lid, u, t⟩ = lid := by
      unfold keyOf
      rw [ht]
      rfl
    exact congrArg ExtractResult.newItems
      (extract_singleton_skip _ _ k (by rw [hkey]; exact hS'))
  · intro u t S' ht hS'
    have hkey : keyOf ⟨lid, u, t⟩ = lid := by
      unfold keyOf
      rw [ht]
      rfl
    have hrun : extract_new_listings [⟨lid, u, t⟩] S' k
        = ⟨[enrichOf ⟨lid, u, t⟩], S' ++ [keyOf ⟨lid, u, t⟩], 1⟩ :=
      extract_singleton_new _ S' k (by rw [hkey]; exact hS')
    constructor
    · rw [hrun]
      show [enrichOf ⟨lid, u, t⟩] = _
      unfold enrichOf
      rw [ht]
    · rw [hrun]
      show lid ∈ S' ++ [keyOf ⟨lid, u, t⟩]
      rw [hkey]
      exact List.mem_append_right _ (List.mem_singleton_self _)

/-- Witness for C1: id `"42"` first seen at price 1000000 (rendered in
the source's NBSP-separated form `1\u00A0000\u00A0000 K\u010D`) is delivered and keyed
`"42:1000000"`; at the unchanged price it is skipped; at price 950000 it
is delivered again. -/
theorem price_in_dedup_key_witness :
    (extract_new_listings [⟨"42", "u1", "a 1\u00A0000\u00A0000 Kč"⟩] [] 20).newItems
      = [⟨"42", "u1", "a 1\u00A0000\u00A0000 Kč", some 1000000⟩] ∧
    (extract_new_listings [⟨"42", "u2", "b 1000000 Kč"⟩]
        (extract_new_listings [⟨"42", "u1", "a 1\u00A0000\u00A0000 Kč"⟩] [] 20).seenAfter 20).newItems
      = [] ∧
    (extract_new_listings [⟨"42", "u3", "c 950000 Kč"⟩]
        (extract_new_listings [⟨"42", "u1", "a 1\u00A0000\u00A0000 Kč"⟩] [] 20).seenAfter 20).newItems
      = [⟨"42", "u3", "c 950000 Kč", some 950000⟩] := by
  have h := price_in_dedup_key "42" "u1" "u2" "u3" "a 1\u00A0000\u00A0000 Kč" "b 1000000 Kč"
    "c 950000 Kč" 1000000 950000 [] 20 (by decide) (by decide) (by decide)
    (by decide) (by decide) (by decide)
  exact ⟨h.2.2.2.1, h.2.2.2.2.1, h.2.2.2.2.2.1⟩

/-! Projection lemmas for one BezWatcher tick. -/

theorem bezTick_newItems (repo : JsonRepo) (key : String) (listings : List Listing)
    (ok : Bool) (take : Nat) (now : Int) :
    (bezTick repo key (some listings) ok take now).newItems
      = (extract_new_listings listings ((get_seen (prune_old repo key 3 now) key).dedup)
          take).newItems := by
  by_cases h : (extract_new_listings listings ((get_seen (prune_old repo key 3 now) key).dedup)
      take).newItems = [] <;> cases ok <;> simp [bezTick, h]

theorem bezTick_fail_saveCalled (repo : JsonRepo) (key : String) (listings : List Listing)
    (take : Nat) (now : Int) :
    (bezTick repo key (some listings) false take now).saveCalled = false := by
  by_cases h : (extract_new_listings listings ((get_seen (prune_old repo key 3 now) key).dedup)
      take).newItems = [] <;> simp [bezTick, h]

theorem bezTick_fail_repo (repo : JsonRepo) (key : String) (listings : List Listing)
    (take : Nat) (now : Int) :
    (bezTick repo key (some listings) false take now).repo = prune_old repo key 3 now := by
  by_cases h : (extract_new_listings listings ((get_seen (prune_old repo key 3 now) key).dedup)
      take).newItems = [] <;> simp [bezTick, h]

/-- C3 counterexample, from the Sreality `Watcher.run` variant: the
per-item posts swallow delivery failures, so on a tick where every post
fails (`postOk` constantly false, `delivered = []`) the batch is still
committed (`saveCalled = true`, the key reaches the persisted store), and
the next tick over the same candidates returns nothing — the items are
*not* retried. -/
theorem sreality_commits_despite_delivery_failure :
    (srealityTick (initRepo FileState.missing) "C" (some [⟨"7", "u", "t"⟩])
        (fun _ => false) 20 0).saveCalled = true ∧
    (srealityTick (initRepo FileState.missing) "C" (some [⟨"7", "u", "t"⟩])
        (fun _ => false) 20 0).delivered = [] ∧
    "7" ∈ get_seen (srealityTick (initRepo FileState.missing) "C" (some [⟨"7", "u", "t"⟩])
        (fun _ => false) 20 0).repo "C" ∧
    (srealityTick (srealityTick (initRepo FileState.missing) "C" (some [⟨"7", "u", "t"⟩])
        (fun _ => false) 20 0).repo "C" (some [⟨"7", "u", "t"⟩])
        (fun _ => true) 20 0).newItems = [] := by
  decide

/-- C3 amended (holds for the Bezrealitky `BezWatcher.run`): when the
single batch post fails, `_save_seen` is not invoked and the store carries
only the effect of the routine TTL prune — no batch key is committed — and
a next tick at the same instant over the same candidates computes exactly
the same new items again. -/
theorem bez_delivery_failure_retry (repo : JsonRepo) (key : String)
    (listings : List Listing) (take : Nat) (now : Int) :
    (bezTick repo key (some listings) false take now).saveCalled = false ∧
    (bezTick repo key (some listings) false take now).repo = prune_old repo key 3 now ∧
    (bezTick (bezTick repo key (some listings) false take now).repo key
        (some listings) true take now).newItems
      = (bezTick repo key (some listings) false take now).newItems := by
  refine ⟨bezTick_fail_saveCalled repo key listings take now,
    bezTick_fail_repo repo key listings take now, ?_⟩
  rw [bezTick_newItems, bezTick_newItems, bezTick_fail_repo, prune_old_idempotent]

/-- C8 counterexample, from the Sreality `BotManager._cmd_interval`: the
command mutates the *running* thread object's `interval_sec` field in
place (same generation 0, new interval 90) and emits no stop/join/start —
the loop is not restarted. -/
theorem sreality_interval_mutates_in_place :
    (cmdIntervalSreality ⟨[("w", ⟨"C", "url", 60⟩)], [("C", ⟨0, 60, "url"⟩)],
        [("C", false)], 1⟩ "CH" "w 90").2
      = [MgrEvent.setIntervalField "C" 90, MgrEvent.saveConfig, MgrEvent.postText "CH"] ∧
    alookup (cmdIntervalSreality ⟨[("w", ⟨"C", "url", 60⟩)], [("C", ⟨0, 60, "url"⟩)],
        [("C", false)], 1⟩ "CH" "w 90").1.threads "C" = some ⟨0, 90, "url"⟩ := by
  decide

theorem cmdIntervalBez_eq (st : MgrState) (ch short : String) (sec : Int) (cfg : WCfg)
    (hcfg : alookup st.cfg short = some cfg) :
    cmdIntervalBez st ch short sec =
      ({ st with
          cfg := aset st.cfg short { cfg with interval := sec }
          stops := aset (if acontains st.stops cfg.channel_id = true then
              amap st.stops cfg.channel_id (fun _ => true) else st.stops) cfg.channel_id false
          threads := aset st.threads cfg.channel_id ⟨st.nextGen, sec, cfg.url⟩
          nextGen := st.nextGen + 1 },
        [MgrEvent.saveConfig] ++
          (if acontains st.stops cfg.channel_id = true then
            [MgrEvent.setStop cfg.channel_id] else []) ++
          (if acontains st.threads cfg.channel_id = true then
            [MgrEvent.joinThread cfg.channel_id 5] else []) ++
          [MgrEvent.startThread cfg.channel_id sec, MgrEvent.postText ch]) := by
  unfold cmdIntervalBez
  rw [hcfg]

/-- C8 amended (holds for the Bezrealitky `BotManager._cmd_interval`): the
command never mutates a running loop's interval field (no
`setIntervalField` effect is ever emitted); instead — whenever the watcher
exists in the registry — it signals the old loop's stop event (when one is
registered), joins the old thread with a bounded 5-second timeout (when
one is running), and installs and starts a freshly constructed loop (a new
generation) carrying the new interval. -/
theorem bez_interval_stop_join_start (st : MgrState) (ch short : String) (sec : Int)
    (cfg : WCfg) (hcfg : alookup st.cfg short = some cfg)
    (hgen : ∀ pr, pr ∈ st.threads → pr.2.gen < st.nextGen) :
    (∀ cid s, MgrEvent.setIntervalField cid s ∉ (cmdIntervalBez st ch short sec).2) ∧
    alookup (cmdIntervalBez st ch short sec).1.threads cfg.channel_id
      = some ⟨st.nextGen, sec, cfg.url⟩ ∧
    (∀ th, (cfg.channel_id, th) ∈ st.threads → th.gen ≠ st.nextGen) ∧
    (acontains st.stops cfg.channel_id = true →
      MgrEvent.setStop cfg.channel_id ∈ (cmdIntervalBez st ch short sec).2) ∧
    (acontains st.threads cfg.channel_id = true →
      MgrEvent.joinThread cfg.channel_id 5 ∈ (cmdIntervalBez st ch short sec).2) ∧
    MgrEvent.startThread cfg.channel_id sec ∈ (cmdIntervalBez st ch short sec).2 := by
  rw [cmdIntervalBez_eq st ch short sec cfg hcfg]
  refine ⟨?_, ?_, ?_, ?_, ?_, ?_⟩
  · intro cid s hmem
    by_cases h1 : acontains st.stops cfg.channel_id = true <;>
      by_cases h2 : acontains st.threads cfg.channel_id = true <;>
        simp [h1, h2] at hmem
  · exact alookup_aset_self st.threads cfg.channel_id ⟨st.nextGen, sec, cfg.url⟩
  · intro th hth
    exact Nat.ne_of_lt (hgen (cfg.channel_id, th) hth)
  · intro h1
    simp [h1]
  · intro h2
    by_cases h1 : acontains st.stops cfg.channel_id = true <;> simp [h1, h2]
  · by_cases h1 : acontains st.stops cfg.channel_id = true <;>
      by_cases h2 : acontains st.threads cfg.channel_id = true <;> simp [h1, h2]

/-- Witness for C8 (amended): a concrete manager with one running watcher
restarts it with the new interval (fresh generation 1, join with timeout
5). -/
theorem bez_interval_stop_join_start_witness :
    alookup (cmdIntervalBez ⟨[("w", ⟨"C", "url", 60⟩)], [("C", ⟨0, 60, "url"⟩)],
        [("C", false)], 1⟩ "CH" "w" 90).1.threads "C" = some ⟨1, 90, "url"⟩ ∧
    MgrEvent.joinThread "C" 5 ∈ (cmdIntervalBez ⟨[("w", ⟨"C", "url", 60⟩)],
        [("C", ⟨0, 60, "url"⟩)], [("C", false)], 1⟩ "CH" "w" 90).2 := by
  have h := bez_interval_stop_join_start ⟨[("w", ⟨"C", "url", 60⟩)],
    [("C", ⟨0, 60, "url"⟩)], [("C", false)], 1⟩ "CH" "w" 90 ⟨"C", "url", 60⟩
    (by decide) (by decide)
  exact ⟨h.2.1, h.2.2.2.2.1 (by decide)⟩

/-- C10 counterexample: the stop check of `extract_listing_links` also
runs *after* the append, so `max_links = 0` still yields one entry —
"at most max_links entries" fails for the bound 0. -/
theorem extract_links_zero_limit_returns_one :
    (extract_listing_links (fun b r => b ++ r) [⟨"/detail/x/1234567", none, none, "t"⟩]
        "https://www.sreality.cz/hledani" 0).length = 1 ∧
    ¬(extract_listing_links (fun b r => b ++ r) [⟨"/detail/x/1234567", none, none, "t"⟩]
        "https://www.sreality.cz/hledani" 0).length ≤ 0 := by
  decide

/-- C10 amended: for every bound `max_links ≥ 1` the function returns at
most `max_links` entries, their ids are pairwise distinct, every returned
entry is built from the *first* detail anchor in document order that
carries its id, and — as long as `urljoin` onto the absolute base domain
never returns an empty string — every returned id is non-empty (a URL with
no six-digit run falls back to the full absolute URL as id). -/
theorem extract_links_bounded_dedup (urljoin : String → String → String)
    (anchors : List Anchor) (base_url : String) (max_links : Nat)
    (hml : 1 ≤ max_links) (hbase : ∀ s, urljoin BASE_DOMAIN s ≠ "") :
    (extract_listing_links urljoin anchors base_url max_links).length ≤ max_links ∧
    ((extract_listing_links urljoin anchors base_url max_links).map fun l => l.id).Nodup ∧
    (∀ r, r ∈ extract_listing_links urljoin anchors base_url max_links →
      (∃ a, anchors.find? (anchorMatches urljoin base_url r.id) = some a ∧
          r = anchorEntry urljoin base_url a) ∧ r.id ≠ "") := by
  refine ⟨ellLoop_length_le urljoin base_url max_links anchors [] [] hml,
    ellLoop_nodup urljoin base_url max_links anchors [] [] rfl List.nodup_nil, ?_⟩
  intro r hr
  rcases ellLoop_first_wins urljoin base_url max_links anchors [] [] r hr with h | ⟨_, a, hfind, hra⟩
  · cases h
  · refine ⟨⟨a, hfind, hra⟩, ?_⟩
    rw [hra]
    exact id_from_url_ne_empty _ (normalize_url_ne_empty urljoin hbase a.href base_url)

/-- Witness for C10 (amended): two anchors pointing at the same listing id
under a bound of 5 produce a single, non-empty-id entry. -/
theorem extract_links_bounded_dedup_witness :
    (extract_listing_links (fun b r => b ++ r)
        [⟨"/detail/x/1234567", none, none, "t"⟩, ⟨"/detail/x/1234567?p=2", none, none, "t2"⟩]
        "https://www.sreality.cz/h" 5).length ≤ 5 ∧
    ((extract_listing_links (fun b r => b ++ r)
        [⟨"/detail/x/1234567", none, none, "t"⟩, ⟨"/detail/x/1234567?p=2", none, none, "t2"⟩]
        "https://www.sreality.cz/h" 5).map fun l => l.id).Nodup := by
  have h := extract_links_bounded_dedup (fun b r => b ++ r)
    [⟨"/detail/x/1234567", none, none, "t"⟩, ⟨"/detail/x/1234567?p=2", none, none, "t2"⟩]
    "https://www.sreality.cz/h" 5 (by decide) (fun s => base_append_ne_empty s)
  exact ⟨h.1, h.2.1⟩

end RealityWatcher

